import Mathlib

/-!
Verification of `train_lm_pfam.py`, the training driver for a bidirectional
recurrent protein language model over Pfam data.

The script's pure logic (sequence preprocessing, batch collation, the
running-mean loss/accuracy accumulator, masked loss/accuracy computation,
output formatting, device selection, and the FASTA record handling in
`load_pfam`) is shallowly embedded below.  Byte strings become `List Nat`
(one entry per byte) or `String` where only splitting on a separator
character matters; NumPy / torch integer tensors become `List Nat` or
nested lists; float arithmetic is modelled exactly over `Rat` (the
accumulators are algebraically exact recurrences; rounding is not part of
any claim); fallible operations return `Except String`.

External modules of the repository that are not part of the snapshot
(`src/alphabets.py`, `src/fasta.py`, `src/models/sequence.py`) are either
abstracted by function parameters (`encode`, per-position log-probability
tensors) or modelled from the spec where a claim needs a concrete fact;
those definitions say so in their doc comments.
-/

namespace TrainLmPfam

/-- `preprocess_sequence(s, alphabet)` from `train_lm_pfam.py` (lines 44-55):
`x = alphabet.encode(s)`, then `z = np.zeros(len(x)+2)` with
`z[1:-1] = x + 1`.  The alphabet's `encode` (from `src/alphabets.py`,
outside the snapshot) is a parameter.  The result is the encoded sequence
shifted up by one, with a `0` start/stop token on each side. -/
def preprocess_sequence (s : List Nat) (encode : List Nat → List Nat) : List Nat :=
  let x := encode s
  0 :: (x.map (fun v => v + 1) ++ [0])

/-- Interior entries of a preprocessed sequence: position `i + 1` holds the
`i`-th encoded value incremented by one. -/
theorem preprocess_get (s : List Nat) (encode : List Nat → List Nat)
    (i : Nat) (hi : i < (encode s).length) :
    (preprocess_sequence s encode).get? (i + 1) = some ((encode s).getD i 0 + 1) := by
  have hi' : i < ((encode s).map (fun v => v + 1)).length := by
    simpa using hi
  simp only [preprocess_sequence, List.get?_cons_succ]
  rw [List.get?_append hi']
  rw [List.get?_map]
  rw [List.get?_eq_get hi, List.getD_eq_get _ _ hi]
  simp

/-- C4: `preprocess_sequence(s, alphabet)` returns an integer array of length
`len(alphabet.encode(s)) + 2`, whose first and last entries are `0` (the
start/stop token) and whose interior entries are the encoded values of `s`
each incremented by `1`, in order. -/
theorem C4_preprocess_sequence (s : List Nat) (encode : List Nat → List Nat) :
    (preprocess_sequence s encode).length = (encode s).length + 2 ∧
    (preprocess_sequence s encode).head? = some 0 ∧
    (preprocess_sequence s encode).getLast? = some 0 ∧
    ∀ i, i < (encode s).length →
      (preprocess_sequence s encode).get? (i + 1) = some ((encode s).getD i 0 + 1) := by
  refine ⟨?_, ?_, ?_, ?_⟩
  · simp [preprocess_sequence]
  · simp [preprocess_sequence]
  · show ((0 :: ((encode s).map (fun v => v + 1))) ++ [0]).getLast? = some 0
    exact List.getLast?_concat _
  · exact preprocess_get s encode

/-- Witness for C4 at a concrete input: with `encode` constantly `[3, 5]`,
the entry at position 1 of the preprocessed sequence is `3 + 1 = 4`. -/
theorem C4_preprocess_sequence_witness :
    (0 : Nat) < ((fun _ => [3, 5]) [7, 7] : List Nat).length ∧
    (preprocess_sequence [7, 7] (fun _ => [3, 5])).get? 1 = some 4 :=
  ⟨by decide, (C4_preprocess_sequence [7, 7] (fun _ => [3, 5])).2.2.2 0 (by decide)⟩

/-! ## Masked loss and accuracy for one minibatch (lines 177-198 / 231-245)

`X` is the collated batch (rows of token indices), `logp` the model's
per-position log-probability tensor (`B × N × nout`), abstracted as nested
lists of rationals since the model itself lives outside the snapshot. -/

/-- One row of `mask = (X != mask_idx)` (line 177). -/
def maskRow (mask_idx : Nat) (xr : List Nat) : List Bool :=
  xr.map (fun v => decide (v ≠ mask_idx))

/-- One row of `index = X * mask.long()` (line 178). -/
def indexRow (mask_idx : Nat) (xr : List Nat) : List Nat :=
  (xr.zip (maskRow mask_idx xr)).map (fun p => p.1 * (if p.2 then 1 else 0))

/-- One row of `loss = -logp.gather(2, index.unsqueeze(2)).squeeze(2)` (line 179). -/
def gatherNegRow (lr : List (List Rat)) (ir : List Nat) : List Rat :=
  (lr.zip ir).map (fun p => -(p.1.getD p.2 0))

/-- `v.masked_select(m)`, one row at a time. -/
def selectRow {α : Type} (vr : List α) (mr : List Bool) : List α :=
  (vr.zip mr).filterMap (fun p => if p.2 then some p.1 else none)

/-- The flat list produced by `loss.masked_select(mask)` (line 180). -/
def lossSelected (mask_idx : Nat) (X : List (List Nat))
    (logp : List (List (List Rat))) : List Rat :=
  ((X.zip logp).map (fun p =>
    selectRow (gatherNegRow p.2 (indexRow mask_idx p.1)) (maskRow mask_idx p.1))).flatten

/-- `loss = torch.mean(loss.masked_select(mask))` (line 180), over `Rat`
(the empty mean, never reached under the claims' hypotheses, reads as 0). -/
def batchLoss (mask_idx : Nat) (X : List (List Nat))
    (logp : List (List (List Rat))) : Rat :=
  (lossSelected mask_idx X logp).sum / ((lossSelected mask_idx X logp).length : Rat)

/-- Index of the first maximal entry of a list:
`_, y_hat = torch.max(logp, 2)` at one position (line 189). -/
def argmax (l : List Rat) : Nat :=
  (l.enum.foldl (fun best p => if best.2 < p.2 then p else best) (0, l.headD 0)).1

/-- The predicted tokens of one row of the batch. -/
def yhatRow (lr : List (List Rat)) : List Nat := lr.map argmax

/-- `correct = torch.sum((y_hat == X).masked_select(mask))` (line 190). -/
def correctCount (mask_idx : Nat) (X : List (List Nat))
    (logp : List (List (List Rat))) : Nat :=
  ((X.zip logp).map (fun p =>
    (selectRow ((p.1.zip (yhatRow p.2)).map (fun q => decide (q.2 = q.1)))
      (maskRow mask_idx p.1)).count true)).sum

/-- `b = mask.long().sum().item()` (line 193): the number of unmasked
token positions of the batch. -/
def maskCount (mask_idx : Nat) (X : List (List Nat)) : Nat :=
  (X.map (fun r => (maskRow mask_idx r).count true)).sum

/-! ## The online running-mean accumulator (lines 166-168, 193-198, 240-245) -/

/-- The running statistics held by `main`'s epoch loops. -/
structure RunningStats where
  n : Nat
  loss_accum : Rat
  accuracy : Rat
deriving Repr, DecidableEq

/-- One update of the online accumulator (lines 193-198, identically
240-245): `n += b`; `loss_accum += b*(loss - loss_accum)/n`;
`accuracy += (correct - b*accuracy)/n`. -/
def accumulate (st : RunningStats) (b : Nat) (loss : Rat) (correct : Nat) : RunningStats :=
  let n := st.n + b
  let delta := (b : Rat) * (loss - st.loss_accum)
  let loss_accum := st.loss_accum + delta / (n : Rat)
  let delta2 := (correct : Rat) - (b : Rat) * st.accuracy
  let accuracy := st.accuracy + delta2 / (n : Rat)
  ⟨n, loss_accum, accuracy⟩

/-- The accumulator state after a sequence of `(b, loss, correct)` batch
summaries, from the initial state `n = 0`, `accuracy = 0`, `loss_accum = 0`. -/
def runStats (bs : List (Nat × Rat × Nat)) : RunningStats :=
  bs.foldl (fun st p => accumulate st p.1 p.2.1 p.2.2) ⟨0, 0, 0⟩

/-- The `(b, loss, correct)` summary of each minibatch of an epoch. -/
def epochBatches (mask_idx : Nat)
    (bs : List (List (List Nat) × List (List (List Rat)))) : List (Nat × Rat × Nat) :=
  bs.map (fun p => (maskCount mask_idx p.1, batchLoss mask_idx p.1 p.2,
    correctCount mask_idx p.1 p.2))

/-- The accumulator state at the end of an epoch over the given minibatches. -/
def epochStats (mask_idx : Nat)
    (bs : List (List (List Nat) × List (List (List Rat)))) : RunningStats :=
  runStats (epochBatches mask_idx bs)

/-- One accumulator step preserves the product form of the running means:
`n` accumulates the token counts and `loss_accum * n` (resp. `accuracy * n`)
accumulates `b * loss` (resp. `correct`). -/
theorem accumulate_inv (st : RunningStats) (b : Nat) (loss : Rat) (c : Nat)
    (hb : 0 < st.n + b) :
    (accumulate st b loss c).n = st.n + b ∧
    (accumulate st b loss c).loss_accum * ((st.n + b : Nat) : Rat) =
      st.loss_accum * (st.n : Rat) + (b : Rat) * loss ∧
    (accumulate st b loss c).accuracy * ((st.n + b : Nat) : Rat) =
      st.accuracy * (st.n : Rat) + (c : Rat) := by
  have hq : ((st.n : Rat) + (b : Rat)) ≠ 0 := by
    have h0 : (0 : Rat) < (st.n : Rat) + (b : Rat) := by exact_mod_cast hb
    linarith
  refine ⟨rfl, ?_, ?_⟩ <;>
  · simp only [accumulate]
    push_cast
    field_simp
    ring

theorem runStats_inv (bs : List (Nat × Rat × Nat))
    (hb : ∀ p ∈ bs, 0 < p.1) : ∀ st : RunningStats,
    (bs.foldl (fun st p => accumulate st p.1 p.2.1 p.2.2) st).n =
      st.n + (bs.map (fun p => p.1)).sum ∧
    (bs.foldl (fun st p => accumulate st p.1 p.2.1 p.2.2) st).loss_accum *
        ((st.n + (bs.map (fun p => p.1)).sum : Nat) : Rat) =
      st.loss_accum * (st.n : Rat) + (bs.map (fun p => (p.1 : Rat) * p.2.1)).sum ∧
    (bs.foldl (fun st p => accumulate st p.1 p.2.1 p.2.2) st).accuracy *
        ((st.n + (bs.map (fun p => p.1)).sum : Nat) : Rat) =
      st.accuracy * (st.n : Rat) + (bs.map (fun p => (p.2.2 : Rat))).sum := by
  induction bs with
  | nil => intro st; simp
  | cons hd tl ih =>
    intro st
    have hhd : 0 < st.n + hd.1 := by
      have := hb hd (by simp)
      omega
    obtain ⟨ha1, ha2, ha3⟩ := accumulate_inv st hd.1 hd.2.1 hd.2.2 hhd
    obtain ⟨ih1, ih2, ih3⟩ := ih (fun p hp => hb p (by simp [hp])) (accumulate st hd.1 hd.2.1 hd.2.2)
    simp only [List.foldl_cons, List.map_cons, List.sum_cons]
    refine ⟨by rw [ih1, ha1]; omega, ?_, ?_⟩
    · rw [show st.n + (hd.1 + (tl.map (fun p => p.1)).sum) =
          (accumulate st hd.1 hd.2.1 hd.2.2).n + (tl.map (fun p => p.1)).sum by
          rw [ha1]; omega]
      rw [ih2, ha1, ha2]
      ring
    · rw [show st.n + (hd.1 + (tl.map (fun p => p.1)).sum) =
          (accumulate st hd.1 hd.2.1 hd.2.2).n + (tl.map (fun p => p.1)).sum by
          rw [ha1]; omega]
      rw [ih3, ha1, ha3]
      ring

/-- The closed form of `runStats`: products with the total token count. -/
theorem runStats_closed (bs : List (Nat × Rat × Nat))
    (hb : ∀ p ∈ bs, 0 < p.1) :
    (runStats bs).n = (bs.map (fun p => p.1)).sum ∧
    (runStats bs).loss_accum * (((bs.map (fun p => p.1)).sum : Nat) : Rat) =
      (bs.map (fun p => (p.1 : Rat) * p.2.1)).sum ∧
    (runStats bs).accuracy * (((bs.map (fun p => p.1)).sum : Nat) : Rat) =
      (bs.map (fun p => (p.2.2 : Rat))).sum := by
  have h := runStats_inv bs hb ⟨0, 0, 0⟩
  simpa [runStats] using h

/-- C2: after each minibatch of a train or test epoch, `loss_accum` equals the
token-count-weighted mean of the per-batch mean losses seen so far
(`Σ bᵢ·lossᵢ / Σ bᵢ`, `bᵢ` the number of unmasked token positions of batch
`i`), and `accuracy` equals the total number of correctly predicted unmasked
tokens so far divided by the total number of unmasked tokens so far. -/
theorem C2_running_mean (mask_idx : Nat)
    (bs : List (List (List Nat) × List (List (List Rat))))
    (hb : ∀ p ∈ bs, 0 < maskCount mask_idx p.1) :
    ∀ k, 0 < k → k ≤ bs.length →
      (epochStats mask_idx (bs.take k)).loss_accum =
        ((epochBatches mask_idx (bs.take k)).map (fun p => (p.1 : Rat) * p.2.1)).sum /
        ((((epochBatches mask_idx (bs.take k)).map (fun p => p.1)).sum : Nat) : Rat) ∧
      (epochStats mask_idx (bs.take k)).accuracy =
        ((((epochBatches mask_idx (bs.take k)).map (fun p => p.2.2)).sum : Nat) : Rat) /
        ((((epochBatches mask_idx (bs.take k)).map (fun p => p.1)).sum : Nat) : Rat) := by
  intro k hk1 hk2
  have hb' : ∀ p ∈ epochBatches mask_idx (bs.take k), 0 < p.1 := by
    intro p hp
    simp only [epochBatches, List.mem_map] at hp
    obtain ⟨q, hq, rfl⟩ := hp
    exact hb q (List.mem_of_mem_take hq)
  obtain ⟨h1, h2, h3⟩ := runStats_closed (epochBatches mask_idx (bs.take k)) hb'
  have hne : epochBatches mask_idx (bs.take k) ≠ [] := by
    simp only [epochBatches, ne_eq, List.map_eq_nil_iff]
    intro hnil
    rcases List.take_eq_nil_iff.mp hnil with h | h
    · omega
    · subst h; simp at hk2; omega
  have hpos : 0 < ((epochBatches mask_idx (bs.take k)).map (fun p => p.1)).sum := by
    apply List.sum_pos
    · intro x hx
      simp only [List.mem_map] at hx
      obtain ⟨q, hq, rfl⟩ := hx
      exact hb' q hq
    · simpa using hne
  have hS : ((((epochBatches mask_idx (bs.take k)).map (fun p => p.1)).sum : Nat) : Rat) ≠ 0 := by
    have hq : (0 : Rat) <
        ((((epochBatches mask_idx (bs.take k)).map (fun p => p.1)).sum : Nat) : Rat) := by
      exact_mod_cast hpos
    linarith
  have hcast : ((((epochBatches mask_idx (bs.take k)).map (fun p => p.2.2)).sum : Nat) : Rat)
      = ((epochBatches mask_idx (bs.take k)).map (fun p => (p.2.2 : Rat))).sum := by
    rw [Nat.cast_list_sum, List.map_map]
    rfl
  constructor
  · rw [eq_div_iff hS]
    simp only [epochStats]
    exact h2
  · rw [eq_div_iff hS, hcast]
    simp only [epochStats]
    exact h3

/-- A concrete two-batch epoch used by the C2 witness. -/
def C2ex : List (List (List Nat) × List (List (List Rat))) :=
  [([[0]], [[[-2]]]), ([[1]], [[[0, -4]]])]

/-- Witness for C2: the running means agree with the weighted means after the
second batch of the concrete epoch `C2ex`. -/
theorem C2_running_mean_witness :
    (∀ p ∈ C2ex, 0 < maskCount 21 p.1) ∧
    ((epochStats 21 (C2ex.take 2)).loss_accum =
        ((epochBatches 21 (C2ex.take 2)).map (fun p => (p.1 : Rat) * p.2.1)).sum /
        ((((epochBatches 21 (C2ex.take 2)).map (fun p => p.1)).sum : Nat) : Rat) ∧
      (epochStats 21 (C2ex.take 2)).accuracy =
        ((((epochBatches 21 (C2ex.take 2)).map (fun p => p.2.2)).sum : Nat) : Rat) /
        ((((epochBatches 21 (C2ex.take 2)).map (fun p => p.1)).sum : Nat) : Rat)) :=
  ⟨by decide, C2_running_mean 21 C2ex (by decide) 2 (by decide) (by decide)⟩

/-! ## Batch collation (lines 135-148) -/

/-- `collate(xs)` from `main` (lines 135-148): `N = max(len(x) for x in xs)`;
`order = np.argsort(lengths)[::-1]`; `X` is prefilled with `mask_idx` and row
`i` receives `xs[order[i]]` in its first positions; `lengths` is permuted by
`order`.  The argsort-then-index construction is modelled as a descending
sort of the sequences by length followed by padding each row with `mask_idx`
up to `N` (on non-empty `xs`, `foldl max 0` over the lengths equals the
source's `max`; on `[]` the source raises ValueError). -/
def collate (mask_idx : Nat) (xs : List (List Nat)) : List (List Nat) × List Nat :=
  let N := (xs.map List.length).foldl max 0
  let sorted := xs.mergeSort (fun a b => decide (b.length ≤ a.length))
  (sorted.map (fun x => x ++ List.replicate (N - x.length) mask_idx),
   sorted.map List.length)

theorem foldl_max_init_le (l : List Nat) : ∀ i : Nat, i ≤ l.foldl max i := by
  induction l with
  | nil => intro i; simp
  | cons a t ih =>
    intro i
    calc i ≤ max i a := Nat.le_max_left i a
    _ ≤ t.foldl max (max i a) := ih (max i a)

theorem mem_le_foldl_max (l : List Nat) : ∀ i : Nat, ∀ a ∈ l, a ≤ l.foldl max i := by
  induction l with
  | nil => intro i a ha; simp at ha
  | cons b t ih =>
    intro i a ha
    rcases List.mem_cons.mp ha with rfl | ha
    · calc a ≤ max i a := Nat.le_max_right i a
      _ ≤ t.foldl max (max i a) := foldl_max_init_le t (max i a)
    · exact ih (max i b) a ha

theorem foldl_max_mem (l : List Nat) : ∀ i : Nat, l.foldl max i = i ∨ l.foldl max i ∈ l := by
  induction l with
  | nil => intro i; left; rfl
  | cons b t ih =>
    intro i
    rcases ih (max i b) with h | h
    · rcases Nat.le_total i b with hib | hbi
      · right
        rw [List.foldl_cons, h, Nat.max_eq_right hib]
        exact List.mem_cons_self b t
      · left
        rw [List.foldl_cons, h, Nat.max_eq_left hbi]
    · right
      exact List.mem_cons_of_mem b h

/-- On a non-empty list of naturals, `foldl max 0` is attained by a member. -/
theorem foldl_max_zero_mem (l : List Nat) (hne : l ≠ []) : l.foldl max 0 ∈ l := by
  rcases foldl_max_mem l 0 with h | h
  · rcases l with _ | ⟨a, t⟩
    · exact absurd rfl hne
    · have ha : a ≤ (a :: t).foldl max 0 := mem_le_foldl_max _ 0 a (List.mem_cons_self a t)
      rw [h] at ha
      have : a = 0 := Nat.le_zero.mp ha
      rw [h, ← this]
      exact List.mem_cons_self a t
  · exact h

/-- C3: on a non-empty list of sequences, `collate` returns a matrix with one
row per input and `N = max input length` columns, a lengths array sorted
non-increasingly, and the rows are the inputs in non-increasing length order,
each occupying its first `lengths[i]` positions with `mask_idx` filling the
rest of the row. -/
theorem C3_collate (mask_idx : Nat) (xs : List (List Nat)) (hne : xs ≠ []) :
    ((collate mask_idx xs).1.length = xs.length ∧
      (xs.map List.length).foldl max 0 ∈ xs.map List.length ∧
      ∀ l ∈ xs.map List.length, l ≤ (xs.map List.length).foldl max 0) ∧
    (∀ row ∈ (collate mask_idx xs).1, row.length = (xs.map List.length).foldl max 0) ∧
    List.Sorted (fun a b => b ≤ a) (collate mask_idx xs).2 ∧
    ∃ ys : List (List Nat), List.Perm ys xs ∧
      (collate mask_idx xs).2 = ys.map List.length ∧
      (collate mask_idx xs).1 = ys.map (fun x =>
        x ++ List.replicate ((xs.map List.length).foldl max 0 - x.length) mask_idx) := by
  have hperm : (xs.mergeSort (fun a b => decide (b.length ≤ a.length))).Perm xs :=
    List.mergeSort_perm xs _
  have hmem : ∀ x ∈ xs, x.length ≤ (xs.map List.length).foldl max 0 := by
    intro x hx
    exact mem_le_foldl_max _ 0 x.length (List.mem_map_of_mem List.length hx)
  refine ⟨⟨?_, ?_, ?_⟩, ?_, ?_, ?_⟩
  · simp [collate, List.length_mergeSort]
  · exact foldl_max_zero_mem _ (by simpa using hne)
  · intro l hl
    exact mem_le_foldl_max _ 0 l hl
  · intro row hrow
    simp only [collate, List.mem_map] at hrow
    obtain ⟨x, hx, rfl⟩ := hrow
    have hx' : x ∈ xs := hperm.mem_iff.mp hx
    have hle := hmem x hx'
    simp [List.length_replicate]
    omega
  · have hsorted := @List.sorted_mergeSort (List Nat)
      (fun a b => decide (b.length ≤ a.length))
      (fun a b c hab hbc => by
        simp only [decide_eq_true_eq] at hab hbc ⊢
        omega)
      (fun a b => by
        simp only [Bool.or_eq_true, decide_eq_true_eq]
        omega)
      xs
    simp only [collate]
    rw [List.Sorted, List.pairwise_map]
    exact hsorted.imp (fun h => by simpa using h)
  · exact ⟨xs.mergeSort (fun a b => decide (b.length ≤ a.length)), hperm, rfl, rfl⟩

/-- Witness for C3 at the concrete batch `[[5], [7, 8]]` with `mask_idx = 21`. -/
theorem C3_collate_witness :
    ([[5], [7, 8]] : List (List Nat)) ≠ [] ∧
    ((((collate 21 [[5], [7, 8]]).1.length = ([[5], [7, 8]] : List (List Nat)).length ∧
      (([[5], [7, 8]] : List (List Nat)).map List.length).foldl max 0 ∈
        ([[5], [7, 8]] : List (List Nat)).map List.length ∧
      ∀ l ∈ (([[5], [7, 8]] : List (List Nat)).map List.length),
        l ≤ (([[5], [7, 8]] : List (List Nat)).map List.length).foldl max 0) ∧
    (∀ row ∈ (collate 21 [[5], [7, 8]]).1,
      row.length = (([[5], [7, 8]] : List (List Nat)).map List.length).foldl max 0) ∧
    List.Sorted (fun a b => b ≤ a) (collate 21 [[5], [7, 8]]).2 ∧
    ∃ ys : List (List Nat), List.Perm ys [[5], [7, 8]] ∧
      (collate 21 [[5], [7, 8]]).2 = ys.map List.length ∧
      (collate 21 [[5], [7, 8]]).1 = ys.map (fun x =>
        x ++ List.replicate
          ((([[5], [7, 8]] : List (List Nat)).map List.length).foldl max 0 - x.length) 21))) :=
  ⟨by decide, C3_collate 21 [[5], [7, 8]] (by decide)⟩

/-! ## Characterization of the masked selections -/

/-- `X` and `logp` have matching leading shapes (same batch size, and per
row the same number of positions), as they do in the program where `logp`
is the model output on `X`. -/
def sameShape (X : List (List Nat)) (logp : List (List (List Rat))) : Bool :=
  X.length == logp.length &&
  (X.zip logp).all (fun p => p.1.length == p.2.length)

/-- Row-level characterization: the masked selection of the gathered negated
log-probabilities keeps exactly the positions whose token differs from
`mask_idx`, and at each kept position it holds minus the log-probability of
the token that is there. -/
theorem selectRow_gather_eq (m : Nat) :
    ∀ (xr : List Nat) (lr : List (List Rat)), xr.length = lr.length →
    selectRow (gatherNegRow lr (indexRow m xr)) (maskRow m xr) =
      ((xr.zip lr).filterMap (fun q =>
        if q.1 ≠ m then some (q.2.getD q.1 0) else none)).map (fun v => -v) := by
  intro xr
  induction xr with
  | nil =>
    intro lr h
    cases lr with
    | nil => rfl
    | cons l lt => simp at h
  | cons x xt ih =>
    intro lr h
    cases lr with
    | nil => simp at h
    | cons l lt =>
      have ht : xt.length = lt.length := by simpa using h
      by_cases hx : x = m
      · subst hx
        simp [selectRow, gatherNegRow, indexRow, maskRow, List.filterMap_cons] at ih ⊢
        exact ih lt ht
      · simp [selectRow, gatherNegRow, indexRow, maskRow, List.filterMap_cons, hx] at ih ⊢
        exact ih lt ht

/-- Row-level count: the masked selection has exactly as many entries as the
row has unmasked positions. -/
theorem selectRow_gather_length (m : Nat) :
    ∀ (xr : List Nat) (lr : List (List Rat)), xr.length = lr.length →
    (selectRow (gatherNegRow lr (indexRow m xr)) (maskRow m xr)).length =
      (maskRow m xr).count true := by
  intro xr
  induction xr with
  | nil =>
    intro lr h
    cases lr with
    | nil => rfl
    | cons l lt => simp at h
  | cons x xt ih =>
    intro lr h
    cases lr with
    | nil => simp at h
    | cons l lt =>
      have ht : xt.length = lt.length := by simpa using h
      by_cases hx : x = m
      · subst hx
        simp [selectRow, gatherNegRow, indexRow, maskRow, List.filterMap_cons,
          List.count_cons] at ih ⊢
        exact ih lt ht
      · simp [selectRow, gatherNegRow, indexRow, maskRow, List.filterMap_cons,
          List.count_cons, hx] at ih ⊢
        exact ih lt ht

/-- Row-level characterization of the correctness bits: the masked selection
of `y_hat == X` keeps exactly the unmasked positions and compares the argmax
prediction with the token there. -/
theorem selectRow_correct_eq (m : Nat) :
    ∀ (xr : List Nat) (lr : List (List Rat)), xr.length = lr.length →
    selectRow ((xr.zip (yhatRow lr)).map (fun q => decide (q.2 = q.1))) (maskRow m xr) =
      (xr.zip lr).filterMap (fun q =>
        if q.1 ≠ m then some (decide (argmax q.2 = q.1)) else none) := by
  intro xr
  induction xr with
  | nil =>
    intro lr h
    cases lr with
    | nil => rfl
    | cons l lt => simp at h
  | cons x xt ih =>
    intro lr h
    cases lr with
    | nil => simp at h
    | cons l lt =>
      have ht : xt.length = lt.length := by simpa using h
      by_cases hx : x = m
      · subst hx
        simp [selectRow, yhatRow, indexRow, maskRow, List.filterMap_cons] at ih ⊢
        exact ih lt ht
      · simp [selectRow, yhatRow, indexRow, maskRow, List.filterMap_cons, hx] at ih ⊢
        exact ih lt ht

/-- The log-probabilities the model assigns to the tokens at the unmasked
positions of a batch, flattened, stated as the spec words it (one entry per
unmasked residue). -/
def specLogLikSelected (mask_idx : Nat) (X : List (List Nat))
    (logp : List (List (List Rat))) : List Rat :=
  ((X.zip logp).map (fun p =>
    (p.1.zip p.2).filterMap (fun q =>
      if q.1 ≠ mask_idx then some (q.2.getD q.1 0) else none))).flatten

/-- Modelled from the spec: "the per-epoch average log-likelihood assigned
by the model to the unmasked residues" — the total log-probability of the
unmasked residues across the epoch's batches, divided by the total number of
unmasked residues. -/
def specAvgLogLikelihood (mask_idx : Nat)
    (bs : List (List (List Nat) × List (List (List Rat)))) : Rat :=
  ((bs.map (fun p => (specLogLikSelected mask_idx p.1 p.2).sum)).sum) /
  (((bs.map (fun p => maskCount mask_idx p.1)).sum : Nat) : Rat)

/-- Batch-level characterization: on matching shapes, the selected losses
are exactly the negated log-probabilities of the unmasked residues, and
their number is `b = mask.long().sum()`. -/
theorem lossSelected_characterization (m : Nat) :
    ∀ (X : List (List Nat)) (logp : List (List (List Rat))),
    sameShape X logp = true →
    lossSelected m X logp = (specLogLikSelected m X logp).map (fun v => -v) ∧
    (lossSelected m X logp).length = maskCount m X := by
  intro X
  induction X with
  | nil =>
    intro logp hs
    simp only [sameShape, Bool.and_eq_true, beq_iff_eq] at hs
    have : logp = [] := List.length_eq_zero.mp hs.1.symm
    subst this
    constructor <;> rfl
  | cons x Xt ih =>
    intro logp hs
    cases logp with
    | nil => simp [sameShape] at hs
    | cons l lt =>
      simp only [sameShape, Bool.and_eq_true, beq_iff_eq, List.length_cons,
        List.zip_cons_cons, List.all_cons] at hs
      obtain ⟨hlen, hrow, hrest⟩ := hs
      have hs' : sameShape Xt lt = true := by
        simp only [sameShape, Bool.and_eq_true, beq_iff_eq]
        exact ⟨by omega, hrest⟩
      obtain ⟨ih1, ih2⟩ := ih lt hs'
      have hrl : x.length = l.length := by exact_mod_cast hrow
      constructor
      · simp only [lossSelected, specLogLikSelected, List.zip_cons_cons,
          List.map_cons, List.flatten_cons, List.map_append]
        rw [selectRow_gather_eq m x l hrl]
        simp only [lossSelected, specLogLikSelected] at ih1
        rw [ih1]
      · simp only [lossSelected, maskCount, List.zip_cons_cons, List.map_cons,
          List.flatten_cons, List.length_append, List.sum_cons]
        rw [selectRow_gather_length m x l hrl]
        simp only [lossSelected, maskCount] at ih2
        rw [ih2]

/-- Per-batch: `b * loss` equals minus the total log-probability of the
batch's unmasked residues. -/
theorem batch_weighted_loss (m : Nat) (X : List (List Nat))
    (logp : List (List (List Rat))) (hs : sameShape X logp = true)
    (hb : 0 < maskCount m X) :
    ((maskCount m X : Nat) : Rat) * batchLoss m X logp =
      -((specLogLikSelected m X logp).sum) := by
  obtain ⟨h1, h2⟩ := lossSelected_characterization m X logp hs
  have hlen : ((lossSelected m X logp).length : Rat) ≠ 0 := by
    rw [h2]
    have : (0 : Rat) < ((maskCount m X : Nat) : Rat) := by exact_mod_cast hb
    linarith
  have hsum : (lossSelected m X logp).sum = -((specLogLikSelected m X logp).sum) := by
    rw [h1]
    induction specLogLikSelected m X logp with
    | nil => simp
    | cons a t iht => simp_all [List.sum_cons]; ring
  rw [batchLoss, ← h2, mul_div_assoc', mul_comm, mul_div_assoc, div_self hlen,
    mul_one, hsum]

/-! ## The printed epoch metrics (lines 212-215 and 259-262) -/

/-- The value `main` prints in the `log_p` column for an epoch: the final
`loss_accum` of that epoch's accumulator. -/
def epochLogP (mask_idx : Nat)
    (bs : List (List (List Nat) × List (List (List Rat)))) : Rat :=
  (epochStats mask_idx bs).loss_accum

/-- `perplex = np.exp(loss_accum)` (lines 212 / 259): the value printed in
the `perplexity` column, over the reals. -/
noncomputable def epochPerplexity (mask_idx : Nat)
    (bs : List (List (List Nat) × List (List (List Rat)))) : Real :=
  Real.exp ((epochLogP mask_idx bs : Rat) : Real)

/-- A concrete one-batch epoch for C5: one unmasked token `5` whose model
log-probability is `-1`. -/
def C5ex : List (List (List Nat) × List (List (List Rat))) :=
  [([[5]], [[[0, 0, 0, 0, 0, -1]]])]

/-- Counterexample for C5 as stated: on the concrete epoch `C5ex` the value
printed in the `log_p` column is `1`, while the per-epoch average
log-likelihood the model assigns to the unmasked residues is `-1`; the
printed value is its negation, not the average log-likelihood itself. -/
theorem C5_counterexample :
    epochLogP 21 C5ex = 1 ∧
    specAvgLogLikelihood 21 C5ex = -1 ∧
    epochLogP 21 C5ex ≠ specAvgLogLikelihood 21 C5ex := by
  have h1 : epochLogP 21 C5ex = 1 := by
    simp [epochLogP, epochStats, epochBatches, runStats, accumulate, batchLoss,
      lossSelected, selectRow, gatherNegRow, indexRow, maskRow, maskCount,
      correctCount, yhatRow, argmax, C5ex]
  have h2 : specAvgLogLikelihood 21 C5ex = -1 := by
    simp [specAvgLogLikelihood, specLogLikSelected, maskCount, maskRow, C5ex]
  refine ⟨h1, h2, by rw [h1, h2]; norm_num⟩

/-- C5 (amended): for every epoch over minibatches with matching shapes and
at least one unmasked token per batch, the `log_p` column holds the
*negative* of the per-epoch average log-likelihood of the unmasked residues
(the average negative log-likelihood), and the `perplexity` column is its
exponential. -/
theorem C5_neg_avg_log_likelihood (mask_idx : Nat)
    (bs : List (List (List Nat) × List (List (List Rat))))
    (hs : ∀ p ∈ bs, sameShape p.1 p.2 = true)
    (hb : ∀ p ∈ bs, 0 < maskCount mask_idx p.1)
    (hne : bs ≠ []) :
    epochLogP mask_idx bs = -(specAvgLogLikelihood mask_idx bs) ∧
    epochPerplexity mask_idx bs = Real.exp ((epochLogP mask_idx bs : Rat) : Real) := by
  refine ⟨?_, rfl⟩
  have hb' : ∀ p ∈ epochBatches mask_idx bs, 0 < p.1 := by
    intro p hp
    simp only [epochBatches, List.mem_map] at hp
    obtain ⟨q, hq, rfl⟩ := hp
    exact hb q hq
  obtain ⟨h1, h2, h3⟩ := runStats_closed (epochBatches mask_idx bs) hb'
  have hmapb : (epochBatches mask_idx bs).map (fun p => p.1) =
      bs.map (fun p => maskCount mask_idx p.1) := by
    simp [epochBatches, List.map_map]
  have hmapl : (epochBatches mask_idx bs).map (fun p => (p.1 : Rat) * p.2.1) =
      bs.map (fun p =>
        ((maskCount mask_idx p.1 : Nat) : Rat) * batchLoss mask_idx p.1 p.2) := by
    simp [epochBatches, List.map_map]
  have hW : (bs.map (fun p =>
      ((maskCount mask_idx p.1 : Nat) : Rat) * batchLoss mask_idx p.1 p.2)).sum =
      -((bs.map (fun p => (specLogLikSelected mask_idx p.1 p.2).sum)).sum) := by
    rw [List.sum_neg, List.map_map]
    congr 1
    apply List.map_congr_left
    intro p hp
    simp only [Function.comp_apply]
    exact batch_weighted_loss mask_idx p.1 p.2 (hs p hp) (hb p hp)
  have hpos : 0 < (bs.map (fun p => maskCount mask_idx p.1)).sum := by
    apply List.sum_pos
    · intro x hx
      simp only [List.mem_map] at hx
      obtain ⟨q, hq, rfl⟩ := hx
      exact hb q hq
    · simpa using hne
  have hS : (((bs.map (fun p => maskCount mask_idx p.1)).sum : Nat) : Rat) ≠ 0 := by
    have hq : (0 : Rat) < (((bs.map (fun p => maskCount mask_idx p.1)).sum : Nat) : Rat) := by
      exact_mod_cast hpos
    linarith
  rw [specAvgLogLikelihood, ← neg_div, eq_div_iff hS]
  rw [hmapb] at h2
  rw [hmapl, hW] at h2
  exact h2

/-- Witness for the amended C5 at the concrete epoch `C5ex`. -/
theorem C5_neg_avg_log_likelihood_witness :
    (∀ p ∈ C5ex, sameShape p.1 p.2 = true) ∧
    (∀ p ∈ C5ex, 0 < maskCount 21 p.1) ∧
    C5ex ≠ [] ∧
    (epochLogP 21 C5ex = -(specAvgLogLikelihood 21 C5ex) ∧
      epochPerplexity 21 C5ex = Real.exp ((epochLogP 21 C5ex : Rat) : Real)) :=
  ⟨by decide, by decide, by decide,
    C5_neg_avg_log_likelihood 21 C5ex (by decide) (by decide) (by decide)⟩

/-! ## The alphabet constants of `main` (lines 92-97) -/

/-- Modelled from the spec: `src/alphabets.py` is not in the snapshot; the
script's own comment (line 93) records that `len(Uniprot21()) = 21`, the
encoded values ranging over `0..20` with `20` standing for any unnatural
amino acid. -/
def Uniprot21Len : Nat := 21

/-- `ntokens = len(alph)` (line 93). -/
def ntokens : Nat := Uniprot21Len

/-- `mask_idx = ntokens` (line 97). -/
def mask_idx : Nat := ntokens

/-- C6: since `preprocess_sequence` shifts every encoded residue up by one
and `mask_idx = ntokens = 21`, the alphabet symbol encoded as `20` (the
unnatural-amino-acid token) is stored as `mask_idx`; and in every batch the
selected losses, the correctness bits and the token count `b` are computed
by filters that keep exactly the positions whose stored value differs from
`mask_idx` — so positions holding that symbol are excluded exactly as
padding positions are. -/
theorem C6_unnatural_token_masked :
    (mask_idx = ntokens ∧ ntokens = 21) ∧
    (∀ (s : List Nat) (encode : List Nat → List Nat) (i : Nat),
      i < (encode s).length → (encode s).getD i 0 = 20 →
      (preprocess_sequence s encode).get? (i + 1) = some mask_idx) ∧
    (∀ (X : List (List Nat)) (logp : List (List (List Rat))),
      sameShape X logp = true →
      lossSelected mask_idx X logp =
        ((X.zip logp).map (fun p => (p.1.zip p.2).filterMap (fun q =>
          if q.1 ≠ mask_idx then some (-(q.2.getD q.1 0)) else none))).flatten ∧
      correctCount mask_idx X logp =
        ((X.zip logp).map (fun p => ((p.1.zip p.2).filterMap (fun q =>
          if q.1 ≠ mask_idx then some (decide (argmax q.2 = q.1)) else none)).count true)).sum ∧
      maskCount mask_idx X =
        (X.map (fun r => r.countP (fun v => decide (v ≠ mask_idx)))).sum) := by
  refine ⟨⟨rfl, rfl⟩, ?_, ?_⟩
  · intro s encode i hi h20
    rw [preprocess_get s encode i hi, h20]
    rfl
  · intro X logp hs
    have hall : ∀ p ∈ X.zip logp, p.1.length = p.2.length := by
      simp only [sameShape, Bool.and_eq_true, List.all_eq_true, beq_iff_eq] at hs
      exact hs.2
    refine ⟨?_, ?_, ?_⟩
    · simp only [lossSelected]
      congr 1
      apply List.map_congr_left
      intro p hp
      rw [selectRow_gather_eq mask_idx p.1 p.2 (hall p hp)]
      rw [List.map_filterMap]
      apply List.filterMap_congr
      intro q hq
      by_cases hqm : q.1 = mask_idx <;> simp [hqm]
    · simp only [correctCount]
      congr 1
      apply List.map_congr_left
      intro p hp
      rw [selectRow_correct_eq mask_idx p.1 p.2 (hall p hp)]
    · simp only [maskCount, maskRow]
      congr 1
      apply List.map_congr_left
      intro r _
      simp [List.count_eq_countP, List.countP_map]
      rfl

/-- Witness for C6: a residue encoded `20` is stored as `mask_idx`, and at a
concrete batch whose single token is `mask_idx` the selections are the
corresponding filters. -/
theorem C6_unnatural_token_masked_witness :
    ((0 : Nat) < (([20] : List Nat)).length ∧
      (([20] : List Nat)).getD 0 0 = 20 ∧
      (preprocess_sequence [] (fun _ => [20])).get? 1 = some mask_idx) ∧
    (sameShape [[21]] [[[0]]] = true ∧
      (lossSelected mask_idx [[21]] [[[0]]] =
        ((([[21]] : List (List Nat)).zip ([[[0]]] : List (List (List Rat)))).map
          (fun p => (p.1.zip p.2).filterMap (fun q =>
            if q.1 ≠ mask_idx then some (-(q.2.getD q.1 0)) else none))).flatten ∧
      correctCount mask_idx [[21]] [[[0]]] =
        ((([[21]] : List (List Nat)).zip ([[[0]]] : List (List (List Rat)))).map
          (fun p => ((p.1.zip p.2).filterMap (fun q =>
            if q.1 ≠ mask_idx then some (decide (argmax q.2 = q.1)) else none)).count
              true)).sum ∧
      maskCount mask_idx [[21]] =
        (([[21]] : List (List Nat)).map
          (fun r => r.countP (fun v => decide (v ≠ mask_idx)))).sum)) :=
  ⟨⟨by decide, by decide,
      C6_unnatural_token_masked.2.1 [] (fun _ => [20]) 0 (by decide) (by decide)⟩,
    ⟨by decide, C6_unnatural_token_masked.2.2 [[21]] [[[0]]] (by decide)⟩⟩

/-! ## Device selection (lines 127-132) -/

/-- The device-related side effects `main` can perform. -/
inductive DeviceAction where
  | setDevice : Int → DeviceAction
  | modelToCuda : DeviceAction
deriving DecidableEq, Repr

/-- `use_cuda = torch.cuda.is_available() and (device == -2 or device >= 0)`
(line 128). -/
def use_cuda (cuda_available : Bool) (device : Int) : Bool :=
  cuda_available && (device == -2 || decide (0 ≤ device))

/-- The device-related side effects of lines 129-132, in program order:
`torch.cuda.set_device(device)` when `device >= 0`, then `model.cuda()`
when `use_cuda`. -/
def deviceActions (cuda_available : Bool) (device : Int) : List DeviceAction :=
  (if 0 ≤ device then [DeviceAction.setDevice device] else []) ++
  (if use_cuda cuda_available device then [DeviceAction.modelToCuda] else [])

/-- C7: CUDA is used iff it is available and the device argument is `-2`
(the default) or at least `0`; with device `-1` the model stays on the CPU
even when CUDA is available; with device `>= 0` that index is selected as
the current device before the model is moved. -/
theorem C7_device_selection (avail : Bool) (d : Int) :
    (use_cuda avail d = true ↔ (avail = true ∧ (d = -2 ∨ 0 ≤ d))) ∧
    (d = -1 → DeviceAction.modelToCuda ∉ deviceActions avail d) ∧
    (0 ≤ d → use_cuda avail d = true →
      deviceActions avail d = [DeviceAction.setDevice d, DeviceAction.modelToCuda]) := by
  refine ⟨?_, ?_, ?_⟩
  · simp [use_cuda]
  · intro hd
    subst hd
    simp [deviceActions, use_cuda]
  · intro hd hu
    simp [deviceActions, hd, hu]

/-- Witness for C7: with CUDA available and device `0`, the GPU is selected
and then the model is moved to it. -/
theorem C7_device_selection_witness :
    (0 : Int) ≤ 0 ∧ use_cuda true 0 = true ∧
    deviceActions true 0 = [DeviceAction.setDevice 0, DeviceAction.modelToCuda] :=
  ⟨by decide, by decide, (C7_device_selection true 0).2.2 (by decide) (by decide)⟩

/-! ## The metrics stream (lines 158-160, 212-216, 259-263) -/

/-- Python's `str.zfill` on an unsigned digit string: left-pad with `0` to
the requested width (strings at least as long are returned unchanged). -/
def zfill (width : Nat) (s : String) : String :=
  String.mk (List.replicate (width - s.length) '0') ++ s

/-- `digits = int(np.floor(np.log10(num_epochs))) + 1` (line 158).  For
`num_epochs = 0`, `np.log10(0)` is `-inf` and `int(-inf)` raises
`OverflowError` before anything is printed; for `num_epochs >= 1` the value
is `floor (log10 n) + 1 = Nat.log 10 n + 1`. -/
def digitsOf (num_epochs : Nat) : Except String Nat :=
  if num_epochs = 0 then
    Except.error "OverflowError: cannot convert float infinity to integer"
  else Except.ok (Nat.log 10 num_epochs + 1)

/-- The header line (line 159). -/
def headerLine : String := "epoch\tsplit\tlog_p\tperplexity\taccuracy"

/-- One printed metrics line (lines 213-215 and 260-262):
`str(epoch+1).zfill(digits)`, the split name, and the stringified
`loss_accum`, `perplex` and `accuracy`, tab-separated. -/
def metricLine (digits : Nat) (epoch : Nat) (split : String)
    (log_p perplexity accuracy : String) : String :=
  zfill digits (toString epoch) ++ "\t" ++ split ++ "\t" ++ log_p ++ "\t" ++
    perplexity ++ "\t" ++ accuracy

/-- The metrics stream of a whole run: `digits` is computed first
(line 158), then the header is printed (line 159), then each epoch appends
its train line followed by its test line (lines 162-263).  The per-epoch
metric strings are abstracted as functions of the epoch index. -/
def outputLines (num_epochs : Nat)
    (trainM testM : Nat → String × String × String) : Except String (List String) :=
  match digitsOf num_epochs with
  | Except.error e => Except.error e
  | Except.ok digits =>
    Except.ok (headerLine :: (List.range num_epochs).flatMap (fun e =>
      [metricLine digits (e + 1) "train" (trainM e).1 (trainM e).2.1 (trainM e).2.2,
       metricLine digits (e + 1) "test" (testM e).1 (testM e).2.1 (testM e).2.2]))

theorem flatMap_pairs_length {α : Type} (f g : Nat → α) (E : Nat) :
    ((List.range E).flatMap (fun e => [f e, g e])).length = 2 * E := by
  induction E with
  | zero => rfl
  | succ n ih =>
    rw [List.range_succ, List.flatMap_append]
    simp only [List.length_append, ih]
    simp
    omega

theorem flatMap_pairs_get {α : Type} (f g : Nat → α) :
    ∀ E k : Nat, k < E →
    ((List.range E).flatMap (fun e => [f e, g e])).get? (2 * k) = some (f k) ∧
    ((List.range E).flatMap (fun e => [f e, g e])).get? (2 * k + 1) = some (g k) := by
  intro E
  induction E with
  | zero => intro k hk; omega
  | succ n ih =>
    intro k hk
    rw [List.range_succ, List.flatMap_append]
    by_cases hkn : k < n
    · have h1 : 2 * k < ((List.range n).flatMap (fun e => [f e, g e])).length := by
        rw [flatMap_pairs_length]; omega
      have h2 : 2 * k + 1 < ((List.range n).flatMap (fun e => [f e, g e])).length := by
        rw [flatMap_pairs_length]; omega
      rw [List.get?_append h1, List.get?_append h2]
      exact ih k hkn
    · have hk' : k = n := by omega
      subst hk'
      have hlen : ((List.range k).flatMap (fun e => [f e, g e])).length = 2 * k :=
        flatMap_pairs_length f g k
      constructor
      · rw [List.get?_append_right (by omega)]
        simp [hlen]
      · rw [List.get?_append_right (by omega)]
        simp [hlen]

/-- C8: for `E >= 1` epochs the metrics stream starts with the tab-separated
header, has exactly two data lines per epoch — the train line of epoch `k`
immediately before the test line of epoch `k`, for `k = 1..E` in order —
and each epoch number is zero-padded to `floor(log10 E) + 1` digits. -/
theorem C8_output_format (E : Nat) (trainM testM : Nat → String × String × String)
    (hE : 1 ≤ E) :
    digitsOf E = Except.ok (Nat.log 10 E + 1) ∧
    ∃ L : List String, outputLines E trainM testM = Except.ok L ∧
      L.get? 0 = some headerLine ∧
      headerLine = "epoch" ++ "\t" ++ "split" ++ "\t" ++ "log_p" ++ "\t" ++
        "perplexity" ++ "\t" ++ "accuracy" ∧
      L.length = 1 + 2 * E ∧
      ∀ k, 1 ≤ k → k ≤ E →
        L.get? (2 * k - 1) = some (metricLine (Nat.log 10 E + 1) k "train"
          (trainM (k - 1)).1 (trainM (k - 1)).2.1 (trainM (k - 1)).2.2) ∧
        L.get? (2 * k) = some (metricLine (Nat.log 10 E + 1) k "test"
          (testM (k - 1)).1 (testM (k - 1)).2.1 (testM (k - 1)).2.2) := by
  have hdig : digitsOf E = Except.ok (Nat.log 10 E + 1) := by
    rw [digitsOf, if_neg (by omega)]
  refine ⟨hdig, headerLine :: (List.range E).flatMap (fun e =>
      [metricLine (Nat.log 10 E + 1) (e + 1) "train"
        (trainM e).1 (trainM e).2.1 (trainM e).2.2,
       metricLine (Nat.log 10 E + 1) (e + 1) "test"
        (testM e).1 (testM e).2.1 (testM e).2.2]), ?_, rfl, rfl, ?_, ?_⟩
  · rw [outputLines, hdig]
  · simp only [List.length_cons, flatMap_pairs_length]
    omega
  · intro k hk1 hk2
    have hk : k - 1 < E := by omega
    obtain ⟨hget1, hget2⟩ := flatMap_pairs_get
      (fun e => metricLine (Nat.log 10 E + 1) (e + 1) "train"
        (trainM e).1 (trainM e).2.1 (trainM e).2.2)
      (fun e => metricLine (Nat.log 10 E + 1) (e + 1) "test"
        (testM e).1 (testM e).2.1 (testM e).2.2)
      E (k - 1) hk
    have e1 : 2 * k - 1 = 2 * (k - 1) + 1 := by omega
    have e2 : 2 * k = (2 * (k - 1) + 1) + 1 := by omega
    have hs : k - 1 + 1 = k := by omega
    constructor
    · rw [e1, List.get?_cons_succ, hget1, hs]
    · rw [e2, List.get?_cons_succ, hget2, hs]

/-- Witness for C8 at a one-epoch run with concrete metric strings. -/
theorem C8_output_format_witness :
    1 ≤ 1 ∧
    (digitsOf 1 = Except.ok (Nat.log 10 1 + 1) ∧
    ∃ L : List String,
      outputLines 1 (fun _ => ("lp", "pp", "ac")) (fun _ => ("LP", "PP", "AC")) =
        Except.ok L ∧
      L.get? 0 = some headerLine ∧
      headerLine = "epoch" ++ "\t" ++ "split" ++ "\t" ++ "log_p" ++ "\t" ++
        "perplexity" ++ "\t" ++ "accuracy" ∧
      L.length = 1 + 2 * 1 ∧
      ∀ k, 1 ≤ k → k ≤ 1 →
        L.get? (2 * k - 1) = some (metricLine (Nat.log 10 1 + 1) k "train"
          ((fun _ => ("lp", "pp", "ac")) (k - 1)).1
          ((fun _ => ("lp", "pp", "ac")) (k - 1)).2.1
          ((fun _ => ("lp", "pp", "ac")) (k - 1)).2.2) ∧
        L.get? (2 * k) = some (metricLine (Nat.log 10 1 + 1) k "test"
          ((fun _ => ("LP", "PP", "AC")) (k - 1)).1
          ((fun _ => ("LP", "PP", "AC")) (k - 1)).2.1
          ((fun _ => ("LP", "PP", "AC")) (k - 1)).2.2)) :=
  ⟨le_refl 1,
    C8_output_format 1 (fun _ => ("lp", "pp", "ac")) (fun _ => ("LP", "PP", "AC"))
      (le_refl 1)⟩

/-- C10: a zero-epoch run fails in the digit-width computation — before the
header or any epoch output — so no training or metric reporting occurs. -/
theorem C10_zero_epochs_precondition (trainM testM : Nat → String × String × String) :
    digitsOf 0 = Except.error "OverflowError: cannot convert float infinity to integer" ∧
    outputLines 0 trainM testM =
      Except.error "OverflowError: cannot convert float infinity to integer" :=
  ⟨rfl, rfl⟩

/-! ## `load_pfam` (lines 57-82) -/

/-- Python's `bytes.split(sep)` for a single-byte separator, on byte lists:
`b''.split(b';') = [b'']`, and every occurrence of the separator starts a
new (possibly empty) field. -/
def splitOnByte (sep : Nat) : List Nat → List (List Nat)
  | [] => [[]]
  | b :: rest =>
    match splitOnByte sep rest with
    | [] => if b = sep then [[], []] else [[b]]
    | cur :: rs => if b = sep then [] :: cur :: rs else (b :: cur) :: rs

/-- Python negative indexing `l[-k]` (`k ≥ 1`): `IndexError` when the list
has fewer than `k` elements. -/
def pyNegGet {α : Type} (l : List α) (k : Nat) : Except String α :=
  if h : 1 ≤ k ∧ k ≤ l.length then
    Except.ok (l.get ⟨l.length - k, by omega⟩)
  else Except.error "IndexError: list index out of range"

/-- `load_pfam(path, alph)` (lines 57-82), applied to the already-parsed
stream of `(name, sequence)` FASTA records (the byte-level parser
`src/fasta.py` is outside the snapshot; `.upper()` is folded into `encode`).
Each record's sequence is preprocessed and collected, and its family is
`name.split(b';')[-2]` (byte 59 is `;`); any exception aborts the whole
load. -/
def load_pfam (records : List (List Nat × List Nat))
    (encode : List Nat → List Nat) : Except String (List (List Nat) × List (List Nat)) :=
  match records with
  | [] => Except.ok ([], [])
  | (name, sequence) :: rest =>
    let x := preprocess_sequence sequence encode
    match pyNegGet (splitOnByte 59 name) 2 with
    | Except.error e => Except.error e
    | Except.ok family =>
      match load_pfam rest encode with
      | Except.error e => Except.error e
      | Except.ok (group, sequences) => Except.ok (family :: group, x :: sequences)

/-- C9: a record whose name contains no `;` (so the split has fewer than two
fields) makes `load_pfam` raise the native `IndexError` of the `[-2]` access
— provided the records before it are well formed, the whole call returns
exactly that error, with no recovery or skipping. -/
theorem C9_malformed_name_raises (pre post : List (List Nat × List Nat))
    (name : List Nat) (seq : List Nat) (encode : List Nat → List Nat)
    (hpre : ∀ p ∈ pre, 2 ≤ (splitOnByte 59 p.1).length)
    (hmal : (splitOnByte 59 name).length < 2) :
    load_pfam (pre ++ (name, seq) :: post) encode =
      Except.error "IndexError: list index out of range" := by
  induction pre with
  | nil =>
    simp only [List.nil_append, load_pfam]
    rw [pyNegGet, dif_neg (by omega)]
  | cons hd tl ih =>
    obtain ⟨n, s⟩ := hd
    have h2 : 2 ≤ (splitOnByte 59 n).length := hpre (n, s) (by simp)
    simp only [List.cons_append, load_pfam]
    rw [pyNegGet, dif_pos ⟨by omega, h2⟩]
    simp only [List.append_eq]
    rw [ih (fun p hp => hpre p (by simp [hp]))]

/-- Witness for C9: one well-formed record followed by a record whose name
has no `;`. -/
theorem C9_malformed_name_raises_witness :
    (∀ p ∈ ([([65, 59, 66, 59], [1])] : List (List Nat × List Nat)),
      2 ≤ (splitOnByte 59 p.1).length) ∧
    (splitOnByte 59 [88]).length < 2 ∧
    load_pfam ([([65, 59, 66, 59], [1])] ++ ([88], [2]) :: []) (fun l => l) =
      Except.error "IndexError: list index out of range" :=
  ⟨by decide, by decide,
    C9_malformed_name_raises [([65, 59, 66, 59], [1])] [] [88] [2] (fun l => l)
      (by decide) (by decide)⟩

/-! ## The undefined `solver` in the training loop (lines 184-187) -/

/-- The module-level names `train_lm_pfam.py` binds before `main` runs: the
`import` and `from ... import` bindings (lines 1-16) and the top-level
assignments (lines 18-41) and function definitions. -/
def moduleBindings : List String :=
  ["print_function", "division", "sys", "argparse", "np", "torch", "nn", "F",
   "Variable", "pack_padded_sequence", "fasta", "Uniprot21", "src",
   "parser", "pfam_train", "pfam_test", "preprocess_sequence", "load_pfam",
   "main"]

/-- Every name assigned somewhere in `main`'s body (lines 90-271), hence a
local of `main` under Python scoping. -/
def mainBindings : List String :=
  ["args", "alph", "ntokens", "nin", "nout", "embedding_dim", "mask_idx",
   "hidden_dim", "num_layers", "device", "num_epochs", "clip", "save_prefix",
   "dropout", "lr", "l2", "mb", "tied", "output", "train_group", "X_train",
   "test_group", "X_test", "model", "use_cuda", "collate", "train_iterator",
   "test_iterator", "digits", "epoch", "iter", "n", "accuracy", "loss_accum",
   "X", "lengths", "logp", "mask", "index", "loss", "y_hat", "correct", "b",
   "delta", "batch", "perplex", "string", "it", "save_path"]

/-- A name resolves inside `main` iff it is a local of `main` or a module
binding (builtins play no role for the names below). -/
def resolvable (s : String) : Bool :=
  mainBindings.contains s || moduleBindings.contains s

/-- The base names referenced, in order, by the statements of the
per-minibatch training body after `loss.backward()` (lines 185-187):
`torch.nn.utils.clip_grad_norm_(model.parameters(), clip)`, then
`solver.step()`, then `solver.zero_grad()`. -/
def trainStepTailRefs : List String :=
  ["torch", "model", "clip", "solver", "solver"]

/-- Straight-line execution of a statement sequence abstracted to its name
references: the first unresolvable name raises `NameError`. -/
def execRefs (refs : List String) : Except String Unit :=
  match refs.find? (fun s => !resolvable s) with
  | some nm => Except.error ("NameError: name " ++ nm ++ " is not defined")
  | none => Except.ok ()

/-- The training phase of one epoch over `numBatches` minibatches: each
minibatch reaches the post-backward tail (lines 185-187); the first
exception aborts the epoch. -/
def trainEpochRun (numBatches : Nat) : Except String Unit :=
  (List.range numBatches).foldlM (fun _ _ => execRefs trainStepTailRefs) ()

/-- C1 fails on the code: `solver` is never bound anywhere in the script
(the optimizer the comment on line 134 promises is never created), so the
first minibatch of the first training epoch raises
`NameError: name solver is not defined` at `solver.step()` (line 186) — the
training phase never completes for any run with at least one minibatch. -/
theorem C1_solver_undefined (n : Nat) :
    resolvable "solver" = false ∧
    execRefs trainStepTailRefs =
      Except.error "NameError: name solver is not defined" ∧
    trainEpochRun (n + 1) =
      Except.error "NameError: name solver is not defined" := by
  have h : execRefs trainStepTailRefs =
      Except.error "NameError: name solver is not defined" := by rfl
  refine ⟨by decide, h, ?_⟩
  rw [trainEpochRun, List.range_succ_eq_map, List.foldlM_cons, h]
  rfl

end TrainLmPfam
